import Mathlib

/-!
Verification of the IDDA (Intelligent Data Dictionary Agent) repository.

The frontend (React pages under `frontend/src/pages` and the string utility
`frontend/src/utils/stringUtils.js`) is embedded directly from the JavaScript
source.  The Python FastAPI backend (analysis cache, SQL agent, connect /
analyze / chat endpoints) is not part of the repository snapshot; components
of it that claims depend on are modelled from the specification and marked
`Modelled from the spec:` in their doc comments.
-/

namespace IDDA

/-! ## Character classes used by `toTitleCase` (frontend/src/utils/stringUtils.js)

The JavaScript regexes `[A-Z]`, `[a-z]`, `\d`, `[_-]` are ASCII-only; JS
`String.prototype.trim` removes (among Unicode spaces) the ASCII whitespace
characters 9–13 and 32. -/

def isUp (c : Char) : Bool := decide (65 ≤ c.toNat ∧ c.toNat ≤ 90)

def isLo (c : Char) : Bool := decide (97 ≤ c.toNat ∧ c.toNat ≤ 122)

def isDig (c : Char) : Bool := decide (48 ≤ c.toNat ∧ c.toNat ≤ 57)

def isLoDig (c : Char) : Bool := isLo c || isDig c

def isDash (c : Char) : Bool := decide (c.toNat = 95 ∨ c.toNat = 45)

def isWS (c : Char) : Bool :=
  decide (c.toNat = 32 ∨ c.toNat = 9 ∨ c.toNat = 10 ∨ c.toNat = 11 ∨
    c.toNat = 12 ∨ c.toNat = 13)

/-- ASCII uppercasing of a single character (identity outside `a`–`z`). -/
def upChar (c : Char) : Char := if isLo c then Char.ofNat (c.toNat - 32) else c

/-- JavaScript `String.prototype.toUpperCase` applied to a one-character
string, restricted to the characters this development evaluates it on: on
ASCII it is `upChar`; the full Unicode case mapping sends dotless i `ı`
(U+0131) to `I` and sharp s `ß` (U+00DF) to the two-character string `SS`. -/
def jsUpChar (c : Char) : List Char :=
  if isLo c then [Char.ofNat (c.toNat - 32)]
  else if c = 'ı' then ['I']
  else if c = 'ß' then ['S', 'S']
  else [c]

/-! ## `toTitleCase` pipeline (stringUtils.js lines 9–24)

`str.replace(/([A-Z]+)([A-Z][a-z])/g, '$1 $2')` — `acrGo` scans left to
right carrying the number `k` of consecutive uppercase characters already
read in the current run; a regex match fires exactly at the last uppercase
letter of a run of length at least two that is immediately followed by a
lowercase letter, inserting a space before that last uppercase letter and
resuming the scan after the consumed lowercase letter. -/

def acrGo (k : Nat) : List Char → List Char
  | [] => []
  | [c] => [c]
  | a :: b :: r =>
    if isUp a && isLo b && decide (1 ≤ k) then ' ' :: a :: b :: acrGo 0 r
    else a :: acrGo (if isUp a then k + 1 else 0) (b :: r)

def acrRep (l : List Char) : List Char := acrGo 0 l

/-- `str.replace(/([a-z\d])([A-Z])/g, '$1 $2')` — a space is inserted between
every lowercase-or-digit character immediately followed by an uppercase
letter; the scan resumes after the consumed pair. -/
def camelRep : List Char → List Char
  | a :: b :: r =>
    if isLoDig a && isUp b then a :: ' ' :: b :: camelRep r
    else a :: camelRep (b :: r)
  | l => l

/-- `str.replace(/[_-]+/g, ' ')` — every maximal run of `_`/`-` becomes one
space; the flag records whether the scan is inside such a run. -/
def dashGo (inRun : Bool) : List Char → List Char
  | [] => []
  | c :: r =>
    if isDash c then
      if inRun then dashGo true r else ' ' :: dashGo true r
    else c :: dashGo false r

def dashRep (l : List Char) : List Char := dashGo false l

/-- Drop trailing whitespace (the right half of JS `trim`). -/
def rstrip : List Char → List Char
  | [] => []
  | c :: r =>
    let r2 := rstrip r
    if r2 = [] && isWS c then [] else c :: r2

/-- JavaScript `String.prototype.trim` on ASCII input. -/
def jsTrim (l : List Char) : List Char := rstrip (l.dropWhile isWS)

/-- `spaced.split(' ').map(w => w.charAt(0).toUpperCase() + w.slice(1)).join(' ')`:
splitting on single spaces, uppercasing each word's first character and
re-joining is the same as uppercasing every character that is at the start of
the string or directly after a space; the flag records whether the next
character starts a word. -/
def capw (atStart : Bool) : List Char → List Char
  | [] => []
  | c :: r =>
    if c = ' ' then ' ' :: capw true r
    else (if atStart then jsUpChar c else [c]) ++ capw false r

/-- `toTitleCase` from frontend/src/utils/stringUtils.js, on the string's
character list.  A falsy string argument (only `""`) returns `''`; otherwise
the three regex replacements run in source order, the result is trimmed,
an empty remainder returns `''`, and otherwise each word is capitalized. -/
def toTitleCase (l : List Char) : List Char :=
  if l = [] then []
  else
    let spaced := jsTrim (dashRep (camelRep (acrRep l)))
    if spaced = [] then [] else capw true spaced

/-- `toTitleCase` on the full JS argument domain: `null`/`undefined` (here
`none`) are falsy and return `''` like the empty string does. -/
def toTitleCaseJS : Option (List Char) → List Char
  | none => []
  | some l => toTitleCase l

/-- ASCII-only strings. -/
def allAscii (l : List Char) : Bool := l.all fun c => decide (c.toNat < 128)

/-! ### Scanners used to analyse the `toTitleCase` pipeline

`hasUUL` detects an occurrence of the acronym regex
`([A-Z]+)([A-Z][a-z])` (equivalently, two uppercase letters directly
followed by a lowercase one); `hasCam` detects an occurrence of the camel
regex `([a-z\d])([A-Z])`. -/

def uulHead (a : Char) : List Char → Bool
  | b :: c :: _ => isUp a && isUp b && isLo c
  | _ => false

def hasUUL : List Char → Bool
  | a :: l => uulHead a l || hasUUL l
  | [] => false

def camHead (a : Char) : List Char → Bool
  | b :: _ => isLoDig a && isUp b
  | _ => false

def hasCam : List Char → Bool
  | a :: l => camHead a l || hasCam l
  | [] => false

def noDashB (l : List Char) : Bool := l.all fun c => !(isDash c)

/-- The match condition of the acronym scan at the head of `x :: t` with `j`
uppercase letters already read. -/
def acrCond (j : Nat) (x : Char) (t : List Char) : Bool :=
  match t with
  | y :: _ => isUp x && isLo y && decide (1 ≤ j)
  | [] => false

/-- The match condition of the camel scan at the head of `x :: t`. -/
def camCond (x : Char) (t : List Char) : Bool :=
  match t with
  | y :: _ => isLoDig x && isUp y
  | [] => false

/-- An uppercase letter directly before the list would complete an acronym
match with its first two characters. -/
def uulJoin : List Char → Bool
  | a :: b :: _ => isUp a && isLo b
  | _ => false

/-- `capw` specialised to ASCII input, where `jsUpChar` returns one
character. -/
def capwA (b : Bool) : List Char → List Char
  | [] => []
  | c :: r =>
    if c = ' ' then ' ' :: capwA true r
    else (if b then upChar c else c) :: capwA false r

/-- The character `capwA` emits for input character `c` under word-start
flag `b`. -/
def hdMap (b : Bool) (c : Char) : Char :=
  if c = ' ' then ' ' else if b then upChar c else c

def headNonWS : List Char → Bool
  | [] => true
  | c :: _ => !(isWS c)

def lastNonWS : List Char → Bool
  | [] => true
  | [c] => !(isWS c)
  | _ :: r => lastNonWS r

/-! ## Schema display (Dashboard.jsx line 18, sidebar Dashboard lines 45–46,
TableView.jsx line 96) -/

/-- Dashboard schema label: `schema_name === '_default_' ? 'default' : schema_name`. -/
def schemaDisplayName (s : String) : String := if s = "_default_" then "default" else s

/-- TableView page title span:
`(schemaName === '_default_' ? '' : schemaName + ".") + itemName`. -/
def tableViewTitle (schemaName itemName : String) : String :=
  (if schemaName = "_default_" then "" else schemaName ++ ".") ++ itemName

/-! ## Chat page (frontend/src/pages/Chat.jsx) -/

/-- One entry of the chat message list: `{ sender, text, sql }`. -/
structure ChatMsg where
  sender : String
  text : String
  sql : Option String
deriving DecidableEq

/-- The component state used by `handleSend`. -/
structure ChatState where
  messages : List ChatMsg
  input : String
  isLoading : Bool
deriving DecidableEq

/-- Body of a successful `/chat` response: `{ answer, generated_sql }`. -/
structure ChatResponse where
  answer : String
  generated_sql : Option String
deriving DecidableEq

/-- Body of the `/chat` request built in `handleSend` (Chat.jsx lines 63–67). -/
structure ChatRequest where
  question : String
  connection_string : String
  chat_mode : String
deriving DecidableEq

def chatRequestBody (question conn mode : String) : ChatRequest :=
  ⟨question, conn, mode⟩

/-- `useState('summary')` — initial chat mode (Chat.jsx line 33). -/
def chatInitialMode : String := "summary"

/-- The chat-mode values reachable from the initial state: the only writers
are the two mode tabs, `setChatMode('summary')` and `setChatMode('sql')`
(Chat.jsx lines 101 and 108). -/
inductive ChatModeReachable : String → Prop
  | start : ChatModeReachable chatInitialMode
  | businessTab (m : String) : ChatModeReachable m → ChatModeReachable "summary"
  | sqlTab (m : String) : ChatModeReachable m → ChatModeReachable "sql"

/-- JS `input.trim()` on a Lean string. -/
def jsTrimStr (s : String) : String := ⟨jsTrim s.data⟩

/-- Error bubble text template (Chat.jsx line 81). -/
def chatErrorText (detail : String) : String :=
  "Sorry, I encountered an error: " ++ detail

def chatUserMsg (input : String) : ChatMsg := ⟨"user", input, none⟩

/-- The single AI message appended per send: the answer (with its optional
generated SQL) on success, the error bubble on failure. -/
def chatReplyMsg : Except String ChatResponse → ChatMsg
  | .ok d => ⟨"ai", d.answer, d.generated_sql⟩
  | .error e => ⟨"ai", chatErrorText e, none⟩

/-- Net effect of one `handleSend` invocation (Chat.jsx lines 50–86) on the
component state, given the settled fetch outcome: a blank input or an
in-flight request returns early; otherwise the user message and exactly one
AI message are appended, the input is cleared and loading ends. -/
def chatHandleSend (st : ChatState) (resp : Except String ChatResponse) : ChatState :=
  if jsTrimStr st.input = "" || st.isLoading then st
  else
    { messages := st.messages ++ [chatUserMsg st.input, chatReplyMsg resp]
      input := ""
      isLoading := false }

/-! ## Landing page (frontend/src/pages/LandingPage.jsx, `handleConnect`) -/

/-- One schema of the `/connect` response: name plus ordered table and view
name lists. -/
structure SchemaDescriptor where
  schema_name : String
  tables : List String
  views : List String
deriving DecidableEq

/-- Modelled from the spec: the missing backend `/connect` endpoint returns
`sequence of SchemaDescriptor | ConnectionError`; the error carries the
human-readable `detail` string the frontend reads from
`err.response?.data?.detail`. -/
def ConnectResult : Type := Except String (List SchemaDescriptor)

structure LandingState where
  dbUrl : String
  isLoading : Bool
  error : String
  storedDbUrl : Option String
  storedSchemas : Option (List SchemaDescriptor)
  route : String
deriving DecidableEq

def landingConnectError (detail : String) : String :=
  "Connection Failed: " ++ detail

/-- Net effect of `handleConnect` (LandingPage.jsx lines 54–69) given the
settled `/connect` outcome: on success the connection string and schema list
are persisted to localStorage and the router navigates to `/dashboard`; on
failure the error banner is set from the detail string and no navigation
happens. -/
def handleConnect (st : LandingState) (resp : ConnectResult) : LandingState :=
  match resp with
  | .ok schemas =>
    { st with
      isLoading := false
      error := ""
      storedDbUrl := some st.dbUrl
      storedSchemas := some schemas
      route := "/dashboard" }
  | .error detail =>
    { st with isLoading := false, error := landingConnectError detail }

/-! ## Table analysis page (frontend/src/pages/TableView.jsx) -/

/-- Payload of the `/analyze/:schema/:item` request (TableView.jsx lines
43–46): the stored connection string and the force flag of this fetch. -/
structure AnalyzePayload where
  connection_string : String
  force_rerun : Bool
deriving DecidableEq

def tableViewRequest (dbUrl : String) (force : Bool) : AnalyzePayload :=
  ⟨dbUrl, force⟩

/-- The initial page-load fetch: `useEffect(() => { fetchData(false) })`
(TableView.jsx lines 58–60). -/
def tableViewInitialRequest (dbUrl : String) : AnalyzePayload :=
  tableViewRequest dbUrl false

/-- The Refresh button: `handleRefresh = () => fetchData(true)`
(TableView.jsx lines 62–64). -/
def tableViewRefreshRequest (dbUrl : String) : AnalyzePayload :=
  tableViewRequest dbUrl true

/-- A successful analysis response as the page consumes it. -/
structure AnalysisData where
  summary : String
  completenessShown : Nat
  schema_explanation : String
deriving DecidableEq

structure TVState where
  data : Option AnalysisData
  loading : Bool
  error : Option String
deriving DecidableEq

def tvFallbackError : String := "Failed to fetch analysis. Please try again."

/-- `fetchData` entry: `setLoading(true); setError(null)` (lines 34–35). -/
def tvStartFetch (st : TVState) : TVState :=
  { st with loading := true, error := none }

/-- Settling of the axios call (lines 42–53): success stores the data, an
error stores `err.response?.data?.detail` or the fallback text; `data` is
left unchanged on error and loading always ends. -/
def tvApplyResponse (st : TVState) (resp : Except (Option String) AnalysisData) :
    TVState :=
  match resp with
  | .ok d => { data := some d, loading := false, error := none }
  | .error det => { st with loading := false, error := some (det.getD tvFallbackError) }

/-- The error text the rendered page shows, following the render branches of
TableView.jsx: the full-page error view (error, no data, not loading), or the
inline `Could not refresh analysis` block (error with stale data, not
loading); spinners and the data view show none. -/
def tvErrorShown (st : TVState) : Option String :=
  if st.loading ∧ st.data = none then none
  else if st.data = none then st.error
  else if st.loading then none
  else st.error

/-! ## Analysis metrics — completeness (spec §4.2, §8)

Modelled from the spec: the backend StatisticsProbe / AnalysisCache metric
computation is not in the repository snapshot.  Completeness is
`100 × (non-null cell count / total cell count)` across all columns and rows
of the table, rounded to the nearest integer (half rounds up), and a table
with zero rows defines completeness as 100. -/

/-- Round `100 * nn / total` to the nearest integer, halves up. -/
def roundPct (nn total : Nat) : Nat := (200 * nn + total) / (2 * total)

/-- A table as its grid of cells; `none` is SQL NULL. -/
def totalCells (t : List (List (Option Nat))) : Nat := (t.map List.length).sum

def nonNullCells (t : List (List (Option Nat))) : Nat :=
  (t.map fun r => (r.filter Option.isSome).length).sum

/-- Modelled from the spec: the completeness metric of an analyzed table. -/
def completeness (t : List (List (Option Nat))) : Nat :=
  if t.length = 0 then 100 else roundPct (nonNullCells t) (totalCells t)

/-! ## SQLAgent — bounded self-correction loop (spec §4.3)

Modelled from the spec: the backend SQLAgent is not in the repository
snapshot.  Drafting asks the code persona for SQL; Executing runs it; on
failure Correcting re-prompts with the failed SQL and the verbatim error and
the loop re-enters Executing until success or the attempt counter reaches the
configured maximum (default 3); exceeding it yields `GivenUp` with a
user-facing answer naming the last error. -/

def defaultMaxAttempts : Nat := 3

/-- One execution attempt of a correction trace: ordinal, query text, and
failure text (`none` on success). -/
structure SQLAttempt where
  ordinal : Nat
  query : String
  failure : Option String
deriving DecidableEq

inductive AgentOutcome (α : Type) where
  | answered (answer : String) (sql : String) (rows : α)
  | givenUp (answer : String)
deriving DecidableEq

/-- Modelled from the spec: the user-facing failure answer of the `GivenUp`
terminal state, naming the last execution error. -/
def givenUpAnswer (lastError : String) : String :=
  "I was unable to answer the question. Last error: " ++ lastError

/-- The Executing/Correcting loop.  `left + 1` attempts may still run and the
current one has ordinal `attempt`; `exec` is the query executor (indexed by
attempt ordinal), `fix` the correction persona, `summ` the answer-synthesis
persona.  Returns the terminal outcome and the correction trace. -/
def agentGo (exec : Nat → String → Except String α) (fix : String → String → String)
    (summ : α → String) : Nat → Nat → String → AgentOutcome α × List SQLAttempt
  | 0, _, _ => (.givenUp (givenUpAnswer "no attempts were permitted"), [])
  | left + 1, attempt, sql =>
    match exec attempt sql with
    | .ok rows => (.answered (summ rows) sql rows, [⟨attempt, sql, none⟩])
    | .error e =>
      if left = 0 then (.givenUp (givenUpAnswer e), [⟨attempt, sql, some e⟩])
      else
        let next := agentGo exec fix summ left (attempt + 1) (fix sql e)
        (next.1, ⟨attempt, sql, some e⟩ :: next.2)

/-- A full agent run: Drafting produces the first candidate query from the
question, then at most `maxAttempts` execution attempts run. -/
def sqlAgentRun (maxAttempts : Nat) (exec : Nat → String → Except String α)
    (draft : String → String) (fix : String → String → String) (summ : α → String)
    (question : String) : AgentOutcome α × List SQLAttempt :=
  agentGo exec fix summ maxAttempts 1 (draft question)

/-! ## AnalysisCache — per-key coalescing (spec §4.2, §5, §9)

Modelled from the spec: the backend AnalysisCache is not in the repository
snapshot.  For one fixed key, the cache entry is registered atomically
(per-key future registered atomically; late joiners attach to it), the
computation runs one StatisticsProbe pass and then two language-model calls,
and a finished computation leaves a Ready value served to later plain
requests.  The transition system interleaves any number of callers with the
phases of the single computation. -/

inductive CPhase where
  | started
  | probed
  | llmOne
  | llmTwo
deriving DecidableEq

inductive CEntry where
  | pending (ph : CPhase) (waiters : Nat)
  | ready (v : Nat)
deriving DecidableEq

/-- Cache state for one key, instrumented with event counters: computations
started, StatisticsProbe passes run, language-model calls made, and requests
received. -/
structure CacheSt where
  entry : Option CEntry
  compsStarted : Nat
  probes : Nat
  llms : Nat
  requests : Nat
deriving DecidableEq

def cacheInit : CacheSt := ⟨none, 0, 0, 0, 0⟩

/-- Modelled from the spec: atomic steps of the per-key cache for plain
(`forceRerun = false`) requests.  A request finding no entry atomically
registers the pending entry and starts the one computation; a request finding
a Pending entry joins its waiter set instead of starting anything; a request
finding a Ready entry is served immediately; the computation itself advances
through one probe pass, two model calls, and completion. -/
inductive CacheStep : CacheSt → CacheSt → Prop
  | newRequest (s : CacheSt) (h : s.entry = none) :
      CacheStep s { entry := some (.pending .started 1)
                    compsStarted := s.compsStarted + 1
                    probes := s.probes, llms := s.llms
                    requests := s.requests + 1 }
  | joinPending (s : CacheSt) (ph : CPhase) (w : Nat)
      (h : s.entry = some (.pending ph w)) :
      CacheStep s { s with entry := some (.pending ph (w + 1))
                           requests := s.requests + 1 }
  | hitReady (s : CacheSt) (v : Nat) (h : s.entry = some (.ready v)) :
      CacheStep s { s with requests := s.requests + 1 }
  | probeRun (s : CacheSt) (w : Nat) (h : s.entry = some (.pending .started w)) :
      CacheStep s { s with entry := some (.pending .probed w)
                           probes := s.probes + 1 }
  | llmSummary (s : CacheSt) (w : Nat) (h : s.entry = some (.pending .probed w)) :
      CacheStep s { s with entry := some (.pending .llmOne w)
                           llms := s.llms + 1 }
  | llmSchema (s : CacheSt) (w : Nat) (h : s.entry = some (.pending .llmOne w)) :
      CacheStep s { s with entry := some (.pending .llmTwo w)
                           llms := s.llms + 1 }
  | finish (s : CacheSt) (w : Nat) (v : Nat)
      (h : s.entry = some (.pending .llmTwo w)) :
      CacheStep s { s with entry := some (.ready v) }

/-- States reachable from the previously-uncached initial state. -/
def CacheReach (s : CacheSt) : Prop :=
  Relation.ReflTransGen CacheStep cacheInit s

/-- The inductive invariant tying the entry's phase to the event counters. -/
def cacheInv (s : CacheSt) : Prop :=
  match s.entry with
  | none => s.compsStarted = 0 ∧ s.probes = 0 ∧ s.llms = 0
  | some (.pending .started _) => s.compsStarted = 1 ∧ s.probes = 0 ∧ s.llms = 0
  | some (.pending .probed _) => s.compsStarted = 1 ∧ s.probes = 1 ∧ s.llms = 0
  | some (.pending .llmOne _) => s.compsStarted = 1 ∧ s.probes = 1 ∧ s.llms = 1
  | some (.pending .llmTwo _) => s.compsStarted = 1 ∧ s.probes = 1 ∧ s.llms = 2
  | some (.ready _) => s.compsStarted = 1 ∧ s.probes = 1 ∧ s.llms = 2

/-! ## AnalysisCache — functional view of `GetOrCompute` with force refresh
(spec §4.2, §8)

Modelled from the spec: `GetOrCompute(key, forceRerun)` over the cache map.
The generation counter distinguishes fresh computations, so `compute gen` is
the value a fresh run performed at generation `gen` produces. -/

def cacheUpdate {K V : Type} [DecidableEq K] (c : K → Option V) (k : K) (v : V) :
    K → Option V :=
  fun k2 => if k2 = k then some v else c k2

/-- Modelled from the spec: returns the result, the new cache map and the new
generation counter.  `forceRerun = true` starts a new computation
unconditionally and replaces the entry; `forceRerun = false` returns a Ready
entry without I/O and computes only on a miss. -/
def getOrCompute {K V : Type} [DecidableEq K] (c : K → Option V)
    (compute : Nat → V) (gen : Nat) (k : K) (force : Bool) :
    V × (K → Option V) × Nat :=
  if force then
    let v := compute gen
    (v, cacheUpdate c k v, gen + 1)
  else
    match c k with
    | some v => (v, c, gen)
    | none =>
      let v := compute gen
      (v, cacheUpdate c k v, gen + 1)

/-! ## Helper lemmas -/

theorem nonNullCells_le_totalCells (t : List (List (Option Nat))) :
    nonNullCells t ≤ totalCells t := by
  induction t with
  | nil => simp [nonNullCells, totalCells]
  | cons r rest ih =>
    simp only [nonNullCells, totalCells, List.map_cons, List.sum_cons] at *
    exact Nat.add_le_add (List.length_filter_le _ _) ih

theorem nonNullCells_eq_zero (t : List (List (Option Nat)))
    (hnull : ∀ r ∈ t, ∀ c ∈ r, c = none) : nonNullCells t = 0 := by
  induction t with
  | nil => rfl
  | cons r rest ih =>
    simp only [nonNullCells, List.map_cons, List.sum_cons]
    have h1 : r.filter Option.isSome = [] := by
      rw [List.filter_eq_nil_iff]
      intro c hc
      rw [hnull r (by simp) c hc]
      simp
    have h2 : nonNullCells rest = 0 :=
      ih fun r2 hr2 c hc => hnull r2 (by simp [hr2]) c hc
    simp only [nonNullCells] at h2
    simp [h1, h2]

theorem roundPct_zero (total : Nat) : roundPct 0 total = 0 := by
  unfold roundPct
  rcases Nat.eq_zero_or_pos total with h0 | h0
  · subst h0; rfl
  · simp only [Nat.mul_zero, Nat.zero_add]
    exact Nat.div_eq_of_lt (by omega)

theorem roundPct_le_hundred (nn total : Nat) (h : nn ≤ total) :
    roundPct nn total ≤ 100 := by
  unfold roundPct
  rcases Nat.eq_zero_or_pos total with h0 | h0
  · subst h0; simp
  · have h2 : 0 < 2 * total := by omega
    have : (200 * nn + total) / (2 * total) < 101 := by
      rw [Nat.div_lt_iff_lt_mul h2]
      omega
    omega

theorem agentGo_succ {α : Type} (exec : Nat → String → Except String α)
    (fix : String → String → String) (summ : α → String)
    (left attempt : Nat) (sql : String) :
    agentGo exec fix summ (left + 1) attempt sql =
      match exec attempt sql with
      | .ok rows => (.answered (summ rows) sql rows, [⟨attempt, sql, none⟩])
      | .error e =>
        if left = 0 then (.givenUp (givenUpAnswer e), [⟨attempt, sql, some e⟩])
        else
          ((agentGo exec fix summ left (attempt + 1) (fix sql e)).1,
            ⟨attempt, sql, some e⟩ :: (agentGo exec fix summ left (attempt + 1) (fix sql e)).2) :=
  rfl

theorem agentGo_allFail {α : Type} (exec : Nat → String → Except String α)
    (fix : String → String → String) (summ : α → String) (errOf : Nat → String)
    (hfail : ∀ n q, exec n q = .error (errOf n)) :
    ∀ left attempt sql,
      (agentGo exec fix summ (left + 1) attempt sql).1 =
        .givenUp (givenUpAnswer (errOf (attempt + left))) ∧
      (agentGo exec fix summ (left + 1) attempt sql).2.length = left + 1 := by
  intro left
  induction left with
  | zero =>
    intro attempt sql
    rw [agentGo_succ, hfail attempt sql]
    simp
  | succ n ih =>
    intro attempt sql
    have h1 := ih (attempt + 1) (fix sql (errOf attempt))
    rw [agentGo_succ, hfail attempt sql]
    dsimp only
    rw [if_neg (Nat.succ_ne_zero n)]
    refine ⟨?_, ?_⟩
    · rw [show attempt + (n + 1) = attempt + 1 + n by omega]
      exact h1.1
    · simp [h1.2]

theorem cacheInv_init : cacheInv cacheInit := by
  simp [cacheInv, cacheInit]

theorem cacheInv_step {s s2 : CacheSt} (hinv : cacheInv s) (hstep : CacheStep s s2) :
    cacheInv s2 := by
  cases hstep with
  | newRequest h => simp only [cacheInv, h] at hinv; simp [cacheInv, hinv]
  | joinPending ph w h =>
    cases ph <;> simp only [cacheInv, h] at hinv <;> simp [cacheInv, hinv]
  | hitReady v h => simp only [cacheInv, h] at hinv; simp [cacheInv, h, hinv]
  | probeRun w h => simp only [cacheInv, h] at hinv; simp [cacheInv, hinv]
  | llmSummary w h => simp only [cacheInv, h] at hinv; simp [cacheInv, hinv]
  | llmSchema w h => simp only [cacheInv, h] at hinv; simp [cacheInv, hinv]
  | finish w v h => simp only [cacheInv, h] at hinv; simp [cacheInv, hinv]

theorem cacheInv_of_reach {s : CacheSt} (h : CacheReach s) : cacheInv s := by
  induction h with
  | refl => exact cacheInv_init
  | tail _ hstep ih => exact cacheInv_step ih hstep

/-! ## Character facts for the `toTitleCase` development -/

theorem char_toNat_ofNat_lt (n : Nat) (h : n < 55296) : (Char.ofNat n).toNat = n := by
  have hv : n.isValidChar := Or.inl h
  rw [Char.ofNat, dif_pos hv]
  rfl

theorem char_eq_of_toNat_eq {c d : Char} (h : c.toNat = d.toNat) : c = d := by
  rcases c with ⟨⟨⟨cv, hc⟩⟩, hc2⟩
  rcases d with ⟨⟨⟨dv, hd⟩⟩, hd2⟩
  simp only [Char.toNat, UInt32.toNat, BitVec.toNat] at h
  subst h
  rfl

theorem space_toNat : (' ' : Char).toNat = 32 := rfl

theorem eq_space_iff_toNat {c : Char} : c = ' ' ↔ c.toNat = 32 :=
  ⟨fun h => by subst h; rfl, fun h => char_eq_of_toNat_eq (by rw [h]; rfl)⟩

theorem isUp_space : isUp ' ' = false := rfl

theorem isLo_space : isLo ' ' = false := rfl

theorem isLoDig_space : isLoDig ' ' = false := rfl

theorem isDash_space : isDash ' ' = false := rfl

theorem isWS_space : isWS ' ' = true := rfl

theorem not_up_of_lo {c : Char} (h : isLo c = true) : isUp c = false := by
  simp only [isLo, decide_eq_true_eq] at h
  simp only [isUp, decide_eq_false_iff_not]
  omega

theorem not_lo_of_up {c : Char} (h : isUp c = true) : isLo c = false := by
  simp only [isUp, decide_eq_true_eq] at h
  simp only [isLo, decide_eq_false_iff_not]
  omega

theorem not_loDig_of_up {c : Char} (h : isUp c = true) : isLoDig c = false := by
  simp only [isUp, decide_eq_true_eq] at h
  simp only [isLoDig, isLo, isDig, Bool.or_eq_false_iff, decide_eq_false_iff_not]
  omega

theorem isLoDig_of_lo {c : Char} (h : isLo c = true) : isLoDig c = true := by
  simp [isLoDig, h]

theorem ne_space_of_toNat {c : Char} (h : c.toNat ≠ 32) : c ≠ ' ' := by
  intro he
  subst he
  exact h space_toNat

theorem upChar_toNat (c : Char) :
    (upChar c).toNat = if isLo c then c.toNat - 32 else c.toNat := by
  unfold upChar
  split
  · next h =>
    have h2 : 97 ≤ c.toNat ∧ c.toNat ≤ 122 := by
      simpa only [isLo, decide_eq_true_eq] using h
    rw [char_toNat_ofNat_lt _ (by omega)]
  · next h => rfl

theorem lo_toNat {c : Char} (h : isLo c = true) : 97 ≤ c.toNat ∧ c.toNat ≤ 122 := by
  simpa only [isLo, decide_eq_true_eq] using h

theorem upChar_toNat_lo {c : Char} (h : isLo c = true) :
    (upChar c).toNat = c.toNat - 32 := by
  rw [upChar_toNat, if_pos h]

theorem upChar_eq_self {c : Char} (h : isLo c = false) : upChar c = c := by
  unfold upChar
  rw [if_neg (by simp [h])]

theorem isUp_upChar (c : Char) : isUp (upChar c) = (isUp c || isLo c) := by
  by_cases hlo : isLo c = true
  · have h := upChar_toNat_lo hlo
    have h2 := lo_toNat hlo
    have h3 : isUp c = false := not_up_of_lo hlo
    rw [hlo, h3]
    simp only [isUp, h, Bool.false_or, decide_eq_true_eq]
    omega
  · rw [upChar_eq_self (by simpa using hlo)]
    simp [Bool.not_eq_true] at hlo
    simp [hlo]

theorem isLo_upChar (c : Char) : isLo (upChar c) = false := by
  by_cases hlo : isLo c = true
  · have h := upChar_toNat_lo hlo
    have h2 := lo_toNat hlo
    simp only [isLo, h, decide_eq_false_iff_not]
    omega
  · rw [upChar_eq_self (by simpa using hlo)]
    simpa using hlo

theorem isDig_upChar (c : Char) : isDig (upChar c) = isDig c := by
  by_cases hlo : isLo c = true
  · have h := upChar_toNat_lo hlo
    have h2 := lo_toNat hlo
    simp only [isDig, h, decide_eq_decide]
    omega
  · rw [upChar_eq_self (by simpa using hlo)]

theorem isLoDig_upChar (c : Char) : isLoDig (upChar c) = isDig c := by
  rw [isLoDig, isLo_upChar, isDig_upChar]
  simp

theorem isDash_upChar (c : Char) : isDash (upChar c) = isDash c := by
  by_cases hlo : isLo c = true
  · have h := upChar_toNat_lo hlo
    have h2 := lo_toNat hlo
    simp only [isDash, h, decide_eq_decide]
    omega
  · rw [upChar_eq_self (by simpa using hlo)]

theorem isWS_upChar (c : Char) : isWS (upChar c) = isWS c := by
  by_cases hlo : isLo c = true
  · have h := upChar_toNat_lo hlo
    have h2 := lo_toNat hlo
    simp only [isWS, h, decide_eq_decide]
    omega
  · rw [upChar_eq_self (by simpa using hlo)]

theorem upChar_ne_space {c : Char} (h : c ≠ ' ') : upChar c ≠ ' ' := by
  by_cases hlo : isLo c = true
  · have h1 := upChar_toNat_lo hlo
    have h2 := lo_toNat hlo
    exact ne_space_of_toNat (by omega)
  · rw [upChar_eq_self (by simpa using hlo)]
    exact h

theorem upChar_upChar (c : Char) : upChar (upChar c) = upChar c :=
  upChar_eq_self (isLo_upChar c)

theorem upChar_ascii {c : Char} (h : c.toNat < 128) : (upChar c).toNat < 128 := by
  have ht := upChar_toNat c
  split at ht <;> omega

theorem dotlessI_toNat : ('ı' : Char).toNat = 305 := rfl

theorem sharpS_toNat : ('ß' : Char).toNat = 223 := rfl

theorem jsUpChar_ascii {c : Char} (h : c.toNat < 128) : jsUpChar c = [upChar c] := by
  by_cases hlo : isLo c = true
  · unfold jsUpChar upChar
    rw [if_pos hlo, if_pos hlo]
  · have hb : isLo c = false := by simpa using hlo
    have hne1 : c ≠ 'ı' := by
      intro he
      subst he
      exact absurd h (by decide)
    have hne2 : c ≠ 'ß' := by
      intro he
      subst he
      exact absurd h (by decide)
    simp [jsUpChar, upChar, hb, hne1, hne2]

/-! ## `hdMap` facts -/

theorem isUp_hdMap (b : Bool) (c : Char) :
    isUp (hdMap b c) = (isUp c || (b && isLo c)) := by
  unfold hdMap
  by_cases hs : c = ' '
  · subst hs
    simp [isUp_space, isLo_space]
  · rw [if_neg hs]
    cases b
    · simp
    · simp [isUp_upChar]

theorem isLo_hdMap (b : Bool) (c : Char) :
    isLo (hdMap b c) = (isLo c && !b) := by
  unfold hdMap
  by_cases hs : c = ' '
  · subst hs
    simp [isLo_space]
  · rw [if_neg hs]
    cases b
    · simp
    · simp [isLo_upChar]

theorem isLoDig_hdMap (b : Bool) (c : Char) :
    isLoDig (hdMap b c) = (if b then isDig c else isLoDig c) := by
  unfold hdMap
  by_cases hs : c = ' '
  · subst hs
    cases b <;> decide
  · rw [if_neg hs]
    cases b
    · simp
    · simp [isLoDig_upChar]

theorem isDash_hdMap (b : Bool) (c : Char) : isDash (hdMap b c) = isDash c := by
  unfold hdMap
  by_cases hs : c = ' '
  · subst hs
    cases b <;> simp
  · rw [if_neg hs]
    cases b
    · simp
    · simp [isDash_upChar]

theorem isWS_hdMap (b : Bool) (c : Char) : isWS (hdMap b c) = isWS c := by
  unfold hdMap
  by_cases hs : c = ' '
  · subst hs
    cases b <;> simp
  · rw [if_neg hs]
    cases b
    · simp
    · simp [isWS_upChar]

/-! ## Scanner unfolding lemmas -/

theorem hasUUL_cons (a : Char) (l : List Char) :
    hasUUL (a :: l) = (uulHead a l || hasUUL l) := rfl

theorem hasCam_cons (a : Char) (l : List Char) :
    hasCam (a :: l) = (camHead a l || hasCam l) := rfl

theorem hasUUL_cons_false {a : Char} {l : List Char}
    (h : hasUUL (a :: l) = false) : uulHead a l = false ∧ hasUUL l = false := by
  rw [hasUUL_cons, Bool.or_eq_false_iff] at h
  exact h

theorem hasCam_cons_false {a : Char} {l : List Char}
    (h : hasCam (a :: l) = false) : camHead a l = false ∧ hasCam l = false := by
  rw [hasCam_cons, Bool.or_eq_false_iff] at h
  exact h

theorem uulHead_two (a b c : Char) (t : List Char) :
    uulHead a (b :: c :: t) = (isUp a && isUp b && isLo c) := rfl

theorem uulHead_nil (a : Char) : uulHead a [] = false := rfl

theorem uulHead_one (a b : Char) : uulHead a [b] = false := rfl

theorem camHead_one (a b : Char) (t : List Char) :
    camHead a (b :: t) = (isLoDig a && isUp b) := rfl

theorem camHead_nil (a : Char) : camHead a [] = false := rfl

theorem uulHead_of_not_up {a : Char} (h : isUp a = false) (M : List Char) :
    uulHead a M = false := by
  match M with
  | [] => rfl
  | [c] => rfl
  | c :: d :: t => simp [uulHead_two, h]

theorem uulHead_of_mid_not_up {a b : Char} (h : isUp b = false) (M : List Char) :
    uulHead a (b :: M) = false := by
  match M with
  | [] => rfl
  | c :: t => simp [uulHead_two, h]

theorem uulHead_of_third_not_lo {a b c : Char} (h : isLo c = false) (t : List Char) :
    uulHead a (b :: c :: t) = false := by
  simp [uulHead_two, h]

theorem camHead_of_not_loDig {a : Char} (h : isLoDig a = false) (M : List Char) :
    camHead a M = false := by
  match M with
  | [] => rfl
  | c :: t => simp [camHead_one, h]

theorem camHead_of_not_up {a b : Char} (h : isUp b = false) (t : List Char) :
    camHead a (b :: t) = false := by
  simp [camHead_one, h]

/-! ## Step lemmas for the pipeline scans -/

theorem acrGo_nil (k : Nat) : acrGo k [] = [] := rfl

theorem acrGo_one (k : Nat) (c : Char) : acrGo k [c] = [c] := rfl

theorem acrGo_pos {j : Nat} {x : Char} {t : List Char}
    (h : acrCond j x t = true) :
    ∃ y t2, t = y :: t2 ∧ isUp x = true ∧ isLo y = true ∧ 1 ≤ j ∧
      acrGo j (x :: t) = ' ' :: x :: y :: acrGo 0 t2 := by
  match t with
  | [] => exact absurd h (by simp [acrCond])
  | y :: t2 =>
    simp only [acrCond, Bool.and_eq_true, decide_eq_true_eq] at h
    refine ⟨y, t2, rfl, h.1.1, h.1.2, h.2, ?_⟩
    show (if isUp x && isLo y && decide (1 ≤ j) then _ else _) = _
    rw [if_pos (by simp [h.1.1, h.1.2, h.2])]

theorem acrGo_neg {j : Nat} {x : Char} {t : List Char}
    (h : acrCond j x t = false) :
    acrGo j (x :: t) = x :: acrGo (if isUp x then j + 1 else 0) t := by
  match t with
  | [] => rfl
  | y :: t2 =>
    simp only [acrCond] at h
    show (if isUp x && isLo y && decide (1 ≤ j) then _ else _) = _
    rw [if_neg (by simp [h])]

theorem camelRep_nil : camelRep [] = [] := rfl

theorem camelRep_one (c : Char) : camelRep [c] = [c] := rfl

theorem camelRep_pos {x : Char} {t : List Char} (h : camCond x t = true) :
    ∃ y t2, t = y :: t2 ∧ isLoDig x = true ∧ isUp y = true ∧
      camelRep (x :: t) = x :: ' ' :: y :: camelRep t2 := by
  match t with
  | [] => exact absurd h (by simp [camCond])
  | y :: t2 =>
    simp only [camCond, Bool.and_eq_true] at h
    refine ⟨y, t2, rfl, h.1, h.2, ?_⟩
    show (if isLoDig x && isUp y then _ else _) = _
    rw [if_pos (by simp [h.1, h.2])]

theorem camelRep_neg {x : Char} {t : List Char} (h : camCond x t = false) :
    camelRep (x :: t) = x :: camelRep t := by
  match t with
  | [] => rfl
  | y :: t2 =>
    simp only [camCond] at h
    show (if isLoDig x && isUp y then _ else _) = _
    rw [if_neg (by simp [h])]

theorem dashGo_nil (b : Bool) : dashGo b [] = [] := rfl

theorem dashGo_dash_run {c : Char} (h : isDash c = true) (r : List Char) :
    dashGo true (c :: r) = dashGo true r := by
  show (if isDash c then _ else _) = _
  rw [if_pos h]
  rfl

theorem dashGo_dash_enter {c : Char} (h : isDash c = true) (r : List Char) :
    dashGo false (c :: r) = ' ' :: dashGo true r := by
  show (if isDash c then _ else _) = _
  rw [if_pos h]
  rfl

theorem dashGo_keep {c : Char} (h : isDash c = false) (b : Bool) (r : List Char) :
    dashGo b (c :: r) = c :: dashGo false r := by
  show (if isDash c then _ else _) = _
  rw [if_neg (by simp [h])]

theorem capwA_nil (b : Bool) : capwA b [] = [] := rfl

theorem capwA_space (b : Bool) (r : List Char) :
    capwA b (' ' :: r) = ' ' :: capwA true r := by
  show (if ' ' = ' ' then _ else _) = _
  rw [if_pos rfl]

theorem capwA_nonspace {c : Char} (h : c ≠ ' ') (b : Bool) (r : List Char) :
    capwA b (c :: r) = (if b then upChar c else c) :: capwA false r := by
  show (if c = ' ' then _ else _) = _
  rw [if_neg h]

theorem capwA_cons (b : Bool) (c : Char) (r : List Char) :
    capwA b (c :: r) = hdMap b c :: capwA (decide (c = ' ')) r := by
  by_cases hs : c = ' '
  · subst hs
    rw [capwA_space]
    simp [hdMap]
  · rw [capwA_nonspace hs]
    simp [hdMap, hs]

/-! ## The acronym scan leaves no acronym match site -/

theorem hasUUL_acrGo : ∀ n l k, l.length ≤ n → hasUUL (acrGo k l) = false := by
  intro n
  induction n with
  | zero =>
    intro l k hl
    have h0 : l = [] := List.length_eq_zero.mp (by omega)
    subst h0
    rfl
  | succ n ih =>
    intro l k hl
    rcases l with _ | ⟨a, l2⟩
    · rfl
    rcases l2 with _ | ⟨b, r⟩
    · rfl
    simp only [List.length_cons] at hl
    by_cases h1 : acrCond k a (b :: r) = true
    · obtain ⟨y, t2, heq, hupA, hloY, hk, hrw⟩ := acrGo_pos h1
      injection heq with hby hrt2
      subst hby
      subst hrt2
      rw [hrw, hasUUL_cons, hasUUL_cons, hasUUL_cons]
      rw [uulHead_of_not_up isUp_space, uulHead_of_mid_not_up (not_up_of_lo hloY),
        uulHead_of_not_up (not_up_of_lo hloY), ih r 0 (by omega)]
      rfl
    · have h1f : acrCond k a (b :: r) = false := by simpa using h1
      rw [acrGo_neg h1f, hasUUL_cons, ih (b :: r) _ (by simp; omega)]
      set k2 := if isUp a then k + 1 else 0 with hk2
      by_cases h2 : acrCond k2 b r = true
      · obtain ⟨z, t3, heq3, hupB, hloZ, hk2p, hrw3⟩ := acrGo_pos h2
        rw [hrw3, uulHead_of_mid_not_up isUp_space]
        rfl
      · have h2f : acrCond k2 b r = false := by simpa using h2
        rw [acrGo_neg h2f]
        rcases r with _ | ⟨c, r2⟩
        · rw [acrGo_nil, uulHead_one]
          rfl
        set k3 := if isUp b then k2 + 1 else 0 with hk3
        by_cases h3 : acrCond k3 c r2 = true
        · obtain ⟨w, t4, heq4, hupC, hloW, hk3p, hrw4⟩ := acrGo_pos h3
          rw [hrw4, uulHead_of_third_not_lo isLo_space]
          rfl
        · have h3f : acrCond k3 c r2 = false := by simpa using h3
          rw [acrGo_neg h3f, uulHead_two]
          by_cases hua : isUp a = true
          · have hk2ge : 1 ≤ k2 := by rw [hk2, if_pos hua]; omega
            have h2b := h2f
            simp only [acrCond, decide_eq_true hk2ge, Bool.and_true] at h2b
            rw [Bool.and_assoc, h2b, Bool.and_false]
            rfl
          · have hua2 : isUp a = false := by simpa using hua
            rw [hua2]
            rfl

theorem camelRep_cons_head (x : Char) (t : List Char) :
    ∃ m, camelRep (x :: t) = x :: m := by
  by_cases h : camCond x t = true
  · obtain ⟨y, t2, heq, h1, h2, hrw⟩ := camelRep_pos h
    exact ⟨' ' :: y :: camelRep t2, hrw⟩
  · exact ⟨camelRep t, camelRep_neg (by simpa using h)⟩

/-! ## The camel scan removes camel sites and creates no acronym site -/

theorem hasUUL_camelRep : ∀ n l, l.length ≤ n → hasUUL l = false →
    hasUUL (camelRep l) = false := by
  intro n
  induction n with
  | zero =>
    intro l hl _
    have h0 : l = [] := List.length_eq_zero.mp (by omega)
    subst h0
    rfl
  | succ n ih =>
    intro l hl hU
    rcases l with _ | ⟨a, l2⟩
    · rfl
    rcases l2 with _ | ⟨b, r⟩
    · rfl
    simp only [List.length_cons] at hl
    obtain ⟨hU1, hU2⟩ := hasUUL_cons_false hU
    by_cases h1 : camCond a (b :: r) = true
    · obtain ⟨y, t2, heq, hld, hup, hrw⟩ := camelRep_pos h1
      injection heq with hby hrt2
      subst hby
      subst hrt2
      rw [hrw, hasUUL_cons, hasUUL_cons, hasUUL_cons]
      obtain ⟨hU2a, hU2b⟩ := hasUUL_cons_false hU2
      rw [uulHead_of_mid_not_up isUp_space, uulHead_of_not_up isUp_space,
        ih r (by omega) hU2b]
      have hmid : uulHead b (camelRep r) = false := by
        rcases r with _ | ⟨c, r2⟩
        · rfl
        by_cases h2 : camCond c r2 = true
        · obtain ⟨z, t3, heq3, hld3, hup3, hrw3⟩ := camelRep_pos h2
          rw [hrw3]
          exact uulHead_of_third_not_lo isLo_space _
        · rw [camelRep_neg (by simpa using h2)]
          rcases r2 with _ | ⟨d, r3⟩
          · rw [camelRep_nil, uulHead_one]
          obtain ⟨m, hm⟩ := camelRep_cons_head d r3
          rw [hm, uulHead_two]
          have := hU2a
          rw [uulHead_two] at this
          exact this
      rw [hmid]
      rfl
    · rw [camelRep_neg (by simpa using h1), hasUUL_cons,
        ih (b :: r) (by simp; omega) hU2]
      have hhead : uulHead a (camelRep (b :: r)) = false := by
        by_cases h2 : camCond b r = true
        · obtain ⟨z, t3, heq3, hld3, hup3, hrw3⟩ := camelRep_pos h2
          rw [hrw3]
          exact uulHead_of_third_not_lo isLo_space _
        · rw [camelRep_neg (by simpa using h2)]
          rcases r with _ | ⟨c, r2⟩
          · rw [camelRep_nil, uulHead_one]
          obtain ⟨m, hm⟩ := camelRep_cons_head c r2
          rw [hm, uulHead_two]
          have := hU1
          rw [uulHead_two] at this
          exact this
      rw [hhead]
      rfl

theorem hasCam_camelRep : ∀ n l, l.length ≤ n → hasCam (camelRep l) = false := by
  intro n
  induction n with
  | zero =>
    intro l hl
    have h0 : l = [] := List.length_eq_zero.mp (by omega)
    subst h0
    rfl
  | succ n ih =>
    intro l hl
    rcases l with _ | ⟨a, l2⟩
    · rfl
    rcases l2 with _ | ⟨b, r⟩
    · rfl
    simp only [List.length_cons] at hl
    by_cases h1 : camCond a (b :: r) = true
    · obtain ⟨y, t2, heq, hld, hup, hrw⟩ := camelRep_pos h1
      injection heq with hby hrt2
      subst hby
      subst hrt2
      rw [hrw, hasCam_cons, hasCam_cons, hasCam_cons]
      rw [camHead_of_not_up isUp_space, camHead_of_not_loDig isLoDig_space,
        camHead_of_not_loDig (not_loDig_of_up hup), ih r (by omega)]
      rfl
    · have h1f : camCond a (b :: r) = false := by simpa using h1
      rw [camelRep_neg h1f, hasCam_cons, ih (b :: r) (by simp; omega)]
      obtain ⟨m, hm⟩ := camelRep_cons_head b r
      rw [hm, camHead_one]
      simp only [camCond] at h1f
      rw [h1f]
      rfl

/-! ## The dash scan: no dashes remain and no site is created -/

theorem hasUUL_dashGo : ∀ l b, hasUUL l = false → hasUUL (dashGo b l) = false := by
  intro l
  induction l with
  | nil => intro b _; rfl
  | cons c r ih =>
    intro b hU
    obtain ⟨hU1, hU2⟩ := hasUUL_cons_false hU
    by_cases hd : isDash c = true
    · cases b
      · rw [dashGo_dash_enter hd, hasUUL_cons, uulHead_of_not_up isUp_space,
          ih true hU2]
        rfl
      · rw [dashGo_dash_run hd]
        exact ih true hU2
    · have hdf : isDash c = false := by simpa using hd
      rw [dashGo_keep hdf, hasUUL_cons, ih false hU2]
      have hhead : uulHead c (dashGo false r) = false := by
        rcases r with _ | ⟨d, r2⟩
        · rfl
        by_cases hd2 : isDash d = true
        · rw [dashGo_dash_enter hd2]
          exact uulHead_of_mid_not_up isUp_space _
        · have hd2f : isDash d = false := by simpa using hd2
          rw [dashGo_keep hd2f]
          rcases r2 with _ | ⟨e, r3⟩
          · rw [dashGo_nil, uulHead_one]
          by_cases hd3 : isDash e = true
          · rw [dashGo_dash_enter hd3]
            exact uulHead_of_third_not_lo isLo_space _
          · have hd3f : isDash e = false := by simpa using hd3
            rw [dashGo_keep hd3f, uulHead_two]
            have := hU1
            rw [uulHead_two] at this
            exact this
      rw [hhead]
      rfl

theorem hasCam_dashGo : ∀ l b, hasCam l = false → hasCam (dashGo b l) = false := by
  intro l
  induction l with
  | nil => intro b _; rfl
  | cons c r ih =>
    intro b hC
    obtain ⟨hC1, hC2⟩ := hasCam_cons_false hC
    by_cases hd : isDash c = true
    · cases b
      · rw [dashGo_dash_enter hd, hasCam_cons, camHead_of_not_loDig isLoDig_space,
          ih true hC2]
        rfl
      · rw [dashGo_dash_run hd]
        exact ih true hC2
    · have hdf : isDash c = false := by simpa using hd
      rw [dashGo_keep hdf, hasCam_cons, ih false hC2]
      have hhead : camHead c (dashGo false r) = false := by
        rcases r with _ | ⟨d, r2⟩
        · rfl
        by_cases hd2 : isDash d = true
        · rw [dashGo_dash_enter hd2]
          exact camHead_of_not_up isUp_space _
        · have hd2f : isDash d = false := by simpa using hd2
          rw [dashGo_keep hd2f, camHead_one]
          have := hC1
          rw [camHead_one] at this
          exact this
      rw [hhead]
      rfl

theorem noDashB_cons (c : Char) (l : List Char) :
    noDashB (c :: l) = (!(isDash c) && noDashB l) := by
  simp [noDashB]

theorem noDashB_dashGo : ∀ l b, noDashB (dashGo b l) = true := by
  intro l
  induction l with
  | nil => intro b; rfl
  | cons c r ih =>
    intro b
    by_cases hd : isDash c = true
    · cases b
      · rw [dashGo_dash_enter hd, noDashB_cons, ih true]
        rfl
      · rw [dashGo_dash_run hd]
        exact ih true
    · have hdf : isDash c = false := by simpa using hd
      rw [dashGo_keep hdf, noDashB_cons, ih false, hdf]
      rfl

/-! ## The scanners are monotone along prefixes and suffixes, so `jsTrim`
preserves their absence -/

theorem uulHead_append {a : Char} {p : List Char} (t : List Char)
    (h : uulHead a p = true) : uulHead a (p ++ t) = true := by
  match p with
  | [] => exact absurd h (by simp [uulHead_nil])
  | [b] => exact absurd h (by simp [uulHead_one])
  | b :: c :: p2 => rw [List.cons_append, List.cons_append, uulHead_two]; rw [uulHead_two] at h; exact h

theorem camHead_append {a : Char} {p : List Char} (t : List Char)
    (h : camHead a p = true) : camHead a (p ++ t) = true := by
  match p with
  | [] => exact absurd h (by simp [camHead_nil])
  | b :: p2 => rw [List.cons_append, camHead_one]; rw [camHead_one] at h; exact h

theorem hasUUL_append_left {p : List Char} (t : List Char)
    (h : hasUUL (p ++ t) = false) : hasUUL p = false := by
  induction p with
  | nil => rfl
  | cons a p2 ih =>
    rw [List.cons_append, hasUUL_cons] at h
    obtain ⟨h1, h2⟩ := Bool.or_eq_false_iff.mp h
    rw [hasUUL_cons, ih h2, Bool.or_false]
    by_cases hh : uulHead a p2 = true
    · rw [uulHead_append t hh] at h1
      cases h1
    · simpa using hh

theorem hasCam_append_left {p : List Char} (t : List Char)
    (h : hasCam (p ++ t) = false) : hasCam p = false := by
  induction p with
  | nil => rfl
  | cons a p2 ih =>
    rw [List.cons_append, hasCam_cons] at h
    obtain ⟨h1, h2⟩ := Bool.or_eq_false_iff.mp h
    rw [hasCam_cons, ih h2, Bool.or_false]
    by_cases hh : camHead a p2 = true
    · rw [camHead_append t hh] at h1
      cases h1
    · simpa using hh

theorem hasUUL_append_right (p : List Char) {t : List Char}
    (h : hasUUL (p ++ t) = false) : hasUUL t = false := by
  induction p with
  | nil => exact h
  | cons a p2 ih =>
    rw [List.cons_append] at h
    exact ih (hasUUL_cons_false h).2

theorem hasCam_append_right (p : List Char) {t : List Char}
    (h : hasCam (p ++ t) = false) : hasCam t = false := by
  induction p with
  | nil => exact h
  | cons a p2 ih =>
    rw [List.cons_append] at h
    exact ih (hasCam_cons_false h).2

theorem rstrip_prefix (l : List Char) : ∃ t, l = rstrip l ++ t := by
  induction l with
  | nil => exact ⟨[], rfl⟩
  | cons c r ih =>
    show ∃ t, c :: r = (if rstrip r = [] && isWS c then [] else c :: rstrip r) ++ t
    by_cases h : (rstrip r = [] && isWS c) = true
    · rw [if_pos h]
      exact ⟨c :: r, rfl⟩
    · rw [if_neg (by simpa using h)]
      obtain ⟨t, ht⟩ := ih
      exact ⟨t, by rw [List.cons_append]; rw [← ht]⟩

theorem dropWhile_suffix (l : List Char) :
    ∃ p, l = p ++ l.dropWhile isWS :=
  ⟨l.takeWhile isWS, Eq.symm (List.takeWhile_append_dropWhile isWS l)⟩

theorem hasUUL_jsTrim {l : List Char} (h : hasUUL l = false) :
    hasUUL (jsTrim l) = false := by
  obtain ⟨p, hp⟩ := dropWhile_suffix l
  have h2 : hasUUL (l.dropWhile isWS) = false := hasUUL_append_right p (by rw [← hp]; exact h)
  obtain ⟨t, ht⟩ := rstrip_prefix (l.dropWhile isWS)
  exact hasUUL_append_left t (by rw [jsTrim, ← ht]; exact h2)

theorem hasCam_jsTrim {l : List Char} (h : hasCam l = false) :
    hasCam (jsTrim l) = false := by
  obtain ⟨p, hp⟩ := dropWhile_suffix l
  have h2 : hasCam (l.dropWhile isWS) = false := hasCam_append_right p (by rw [← hp]; exact h)
  obtain ⟨t, ht⟩ := rstrip_prefix (l.dropWhile isWS)
  exact hasCam_append_left t (by rw [jsTrim, ← ht]; exact h2)

theorem noDashB_sub {x y : List Char} (h : noDashB (x ++ y) = true) :
    noDashB x = true ∧ noDashB y = true := by
  simp only [noDashB, List.all_append, Bool.and_eq_true] at h
  exact ⟨h.1, h.2⟩

theorem noDashB_jsTrim {l : List Char} (h : noDashB l = true) :
    noDashB (jsTrim l) = true := by
  obtain ⟨p, hp⟩ := dropWhile_suffix l
  have h2 : noDashB (l.dropWhile isWS) = true := (noDashB_sub (by rw [← hp]; exact h)).2
  obtain ⟨t, ht⟩ := rstrip_prefix (l.dropWhile isWS)
  rw [jsTrim]
  exact (noDashB_sub (x := rstrip (l.dropWhile isWS)) (y := t) (by rw [← ht]; exact h2)).1

theorem allAscii_sub {x y : List Char} (h : allAscii (x ++ y) = true) :
    allAscii x = true ∧ allAscii y = true := by
  simp only [allAscii, List.all_append, Bool.and_eq_true] at h
  exact ⟨h.1, h.2⟩

theorem allAscii_jsTrim {l : List Char} (h : allAscii l = true) :
    allAscii (jsTrim l) = true := by
  obtain ⟨p, hp⟩ := dropWhile_suffix l
  have h2 : allAscii (l.dropWhile isWS) = true := (allAscii_sub (by rw [← hp]; exact h)).2
  obtain ⟨t, ht⟩ := rstrip_prefix (l.dropWhile isWS)
  rw [jsTrim]
  exact (allAscii_sub (x := rstrip (l.dropWhile isWS)) (y := t) (by rw [← ht]; exact h2)).1

/-! ## `jsTrim` output has no whitespace at either end, and is the identity
on such strings -/

theorem headNonWS_dropWhile (l : List Char) :
    headNonWS (l.dropWhile isWS) = true := by
  induction l with
  | nil => rfl
  | cons c r ih =>
    rw [List.dropWhile_cons]
    by_cases h : isWS c = true
    · rw [if_pos (by simp [h])]
      exact ih
    · have hf : isWS c = false := by simpa using h
      rw [if_neg (by simp [hf])]
      simp [headNonWS, hf]

theorem rstrip_headNonWS {l : List Char} (h : headNonWS l = true) :
    headNonWS (rstrip l) = true := by
  rcases l with _ | ⟨c, r⟩
  · rfl
  show headNonWS (if rstrip r = [] && isWS c then [] else c :: rstrip r) = true
  by_cases hb : (rstrip r = [] && isWS c) = true
  · rw [if_pos hb]
    rfl
  · rw [if_neg (by simpa using hb)]
    exact h

theorem lastNonWS_cons_cons (c d : Char) (m : List Char) :
    lastNonWS (c :: d :: m) = lastNonWS (d :: m) := rfl

theorem lastNonWS_rstrip (l : List Char) : lastNonWS (rstrip l) = true := by
  induction l with
  | nil => rfl
  | cons c r ih =>
    show lastNonWS (if rstrip r = [] && isWS c then [] else c :: rstrip r) = true
    by_cases hb : (rstrip r = [] && isWS c) = true
    · rw [if_pos hb]
      rfl
    · rw [if_neg (by simpa using hb)]
      rcases he : rstrip r with _ | ⟨d, m⟩
      · have hc : isWS c = false := by
          by_contra hcc
          have hcc2 : isWS c = true := by simpa using hcc
          exact hb (by simp [he, hcc2])
        simp [lastNonWS, hc]
      · rw [lastNonWS_cons_cons]
        rw [he] at ih
        exact ih

theorem headNonWS_jsTrim (l : List Char) : headNonWS (jsTrim l) = true :=
  rstrip_headNonWS (headNonWS_dropWhile l)

theorem lastNonWS_jsTrim (l : List Char) : lastNonWS (jsTrim l) = true :=
  lastNonWS_rstrip _

theorem dropWhile_id_of_headNonWS {l : List Char} (h : headNonWS l = true) :
    l.dropWhile isWS = l := by
  rcases l with _ | ⟨c, r⟩
  · rfl
  have hc : isWS c = false := by simpa [headNonWS] using h
  rw [List.dropWhile_cons, if_neg (by simp [hc])]

theorem rstrip_id_of_lastNonWS : ∀ l, lastNonWS l = true → rstrip l = l := by
  intro l
  induction l with
  | nil => intro _; rfl
  | cons c r ih =>
    intro h
    show (if rstrip r = [] && isWS c then [] else c :: rstrip r) = c :: r
    rcases r with _ | ⟨d, m⟩
    · have hc : isWS c = false := by simpa [lastNonWS] using h
      rw [if_neg (by simp [hc])]
      rfl
    · have hr : rstrip (d :: m) = d :: m := ih (by rw [← lastNonWS_cons_cons c]; exact h)
      rw [if_neg (by simp [hr]), hr]

theorem jsTrim_id {l : List Char} (h1 : headNonWS l = true)
    (h2 : lastNonWS l = true) : jsTrim l = l := by
  rw [jsTrim, dropWhile_id_of_headNonWS h1, rstrip_id_of_lastNonWS l h2]

/-! ## ASCII is preserved along the pipeline -/

theorem allAscii_cons (c : Char) (l : List Char) :
    allAscii (c :: l) = (decide (c.toNat < 128) && allAscii l) := by
  simp [allAscii]

theorem allAscii_cons_true {c : Char} {l : List Char}
    (hc : c.toNat < 128) (hl : allAscii l = true) : allAscii (c :: l) = true := by
  rw [allAscii_cons, hl, decide_eq_true hc]
  rfl

theorem allAscii_cons_elim {c : Char} {l : List Char}
    (h : allAscii (c :: l) = true) : c.toNat < 128 ∧ allAscii l = true := by
  rw [allAscii_cons, Bool.and_eq_true, decide_eq_true_eq] at h
  exact h

theorem space_ascii : (' ' : Char).toNat < 128 := by decide

theorem allAscii_acrGo : ∀ n l k, l.length ≤ n → allAscii l = true →
    allAscii (acrGo k l) = true := by
  intro n
  induction n with
  | zero =>
    intro l k hl ha
    have h0 : l = [] := List.length_eq_zero.mp (by omega)
    subst h0
    rfl
  | succ n ih =>
    intro l k hl ha
    rcases l with _ | ⟨a, l2⟩
    · rfl
    rcases l2 with _ | ⟨b, r⟩
    · exact ha
    simp only [List.length_cons] at hl
    obtain ⟨ha1, ha2⟩ := allAscii_cons_elim ha
    obtain ⟨hb1, hr⟩ := allAscii_cons_elim ha2
    by_cases h1 : acrCond k a (b :: r) = true
    · obtain ⟨y, t2, heq, _, _, _, hrw⟩ := acrGo_pos h1
      injection heq with hby hrt2
      subst hby
      subst hrt2
      rw [hrw]
      exact allAscii_cons_true space_ascii (allAscii_cons_true ha1
        (allAscii_cons_true hb1 (ih r 0 (by omega) hr)))
    · rw [acrGo_neg (by simpa using h1)]
      exact allAscii_cons_true ha1 (ih (b :: r) _ (by simp; omega)
        (allAscii_cons_true hb1 hr))

theorem allAscii_camelRep : ∀ n l, l.length ≤ n → allAscii l = true →
    allAscii (camelRep l) = true := by
  intro n
  induction n with
  | zero =>
    intro l hl ha
    have h0 : l = [] := List.length_eq_zero.mp (by omega)
    subst h0
    rfl
  | succ n ih =>
    intro l hl ha
    rcases l with _ | ⟨a, l2⟩
    · rfl
    rcases l2 with _ | ⟨b, r⟩
    · exact ha
    simp only [List.length_cons] at hl
    obtain ⟨ha1, ha2⟩ := allAscii_cons_elim ha
    obtain ⟨hb1, hr⟩ := allAscii_cons_elim ha2
    by_cases h1 : camCond a (b :: r) = true
    · obtain ⟨y, t2, heq, _, _, hrw⟩ := camelRep_pos h1
      injection heq with hby hrt2
      subst hby
      subst hrt2
      rw [hrw]
      exact allAscii_cons_true ha1 (allAscii_cons_true space_ascii
        (allAscii_cons_true hb1 (ih r (by omega) hr)))
    · rw [camelRep_neg (by simpa using h1)]
      exact allAscii_cons_true ha1 (ih (b :: r) (by simp; omega)
        (allAscii_cons_true hb1 hr))

theorem allAscii_dashGo : ∀ l b, allAscii l = true → allAscii (dashGo b l) = true := by
  intro l
  induction l with
  | nil => intro b _; rfl
  | cons c r ih =>
    intro b ha
    obtain ⟨hc, hr⟩ := allAscii_cons_elim ha
    by_cases hd : isDash c = true
    · cases b
      · rw [dashGo_dash_enter hd]
        exact allAscii_cons_true space_ascii (ih true hr)
      · rw [dashGo_dash_run hd]
        exact ih true hr
    · rw [dashGo_keep (by simpa using hd)]
      exact allAscii_cons_true hc (ih false hr)

theorem hdMap_ascii {c : Char} (b : Bool) (h : c.toNat < 128) :
    (hdMap b c).toNat < 128 := by
  unfold hdMap
  by_cases hs : c = ' '
  · rw [if_pos hs]
    exact space_ascii
  · rw [if_neg hs]
    cases b
    · simpa using h
    · simpa using upChar_ascii h

theorem allAscii_capwA : ∀ l b, allAscii l = true → allAscii (capwA b l) = true := by
  intro l
  induction l with
  | nil => intro b _; rfl
  | cons c r ih =>
    intro b ha
    obtain ⟨hc, hr⟩ := allAscii_cons_elim ha
    rw [capwA_cons]
    exact allAscii_cons_true (hdMap_ascii b hc) (ih _ hr)

/-! ## On ASCII input `capw` is `capwA` -/

theorem capw_eq_capwA : ∀ l b, allAscii l = true → capw b l = capwA b l := by
  intro l
  induction l with
  | nil => intro b _; rfl
  | cons c r ih =>
    intro b ha
    obtain ⟨hc, hr⟩ := allAscii_cons_elim ha
    by_cases hs : c = ' '
    · subst hs
      show (if ' ' = ' ' then _ else _) = _
      rw [if_pos rfl, capwA_space, ih true hr]
    · show (if c = ' ' then _ else _) = _
      rw [if_neg hs, capwA_nonspace hs, ih false hr]
      cases b
      · rfl
      · rw [jsUpChar_ascii hc]
        rfl

/-! ## Identity lemmas: a string with no match site is fixed by each scan -/

theorem acrGo_id : ∀ l k, hasUUL l = false → (1 ≤ k → uulJoin l = false) →
    acrGo k l = l := by
  intro l
  induction l with
  | nil => intro k _ _; rfl
  | cons a l2 ih =>
    intro k hU hJ
    rcases l2 with _ | ⟨b, r⟩
    · rfl
    have hcond : acrCond k a (b :: r) = false := by
      by_cases hk : 1 ≤ k
      · have hj := hJ hk
        simp only [uulJoin] at hj
        simp only [acrCond, hj]
        rfl
      · simp only [acrCond, decide_eq_false hk]
        simp
    rw [acrGo_neg hcond]
    congr 1
    obtain ⟨hU1, hU2⟩ := hasUUL_cons_false hU
    refine ih _ hU2 ?_
    intro hk2
    by_cases hua : isUp a = true
    · show uulJoin (b :: r) = false
      rcases r with _ | ⟨c, r2⟩
      · rfl
      show (isUp b && isLo c) = false
      have := hU1
      rw [uulHead_two, hua] at this
      simpa using this
    · rw [if_neg (by simpa using hua)] at hk2
      omega

theorem camelRep_id : ∀ l, hasCam l = false → camelRep l = l := by
  intro l
  induction l with
  | nil => intro _; rfl
  | cons a l2 ih =>
    intro hC
    rcases l2 with _ | ⟨b, r⟩
    · rfl
    obtain ⟨hC1, hC2⟩ := hasCam_cons_false hC
    have hcond : camCond a (b :: r) = false := by
      show (isLoDig a && isUp b) = false
      have := hC1
      rwa [camHead_one] at this
    rw [camelRep_neg hcond]
    congr 1
    exact ih hC2

theorem dashGo_id : ∀ l b, noDashB l = true → dashGo b l = l := by
  intro l
  induction l with
  | nil => intro b _; rfl
  | cons c r ih =>
    intro b hD
    rw [noDashB_cons, Bool.and_eq_true] at hD
    have hc : isDash c = false := by simpa using hD.1
    rw [dashGo_keep hc]
    congr 1
    exact ih false hD.2

/-! ## Capitalization creates no match site and is idempotent -/

theorem isLoDig_or {c : Char} (h : isLoDig c = false) :
    isLo c = false ∧ isDig c = false := by
  rw [isLoDig, Bool.or_eq_false_iff] at h
  exact h

theorem capwA_scan : ∀ l b, hasCam l = false → hasUUL l = false →
    hasCam (capwA b l) = false ∧ hasUUL (capwA b l) = false := by
  intro l
  induction l with
  | nil => intro b _ _; exact ⟨rfl, rfl⟩
  | cons c r ih =>
    intro b hC hU
    obtain ⟨hC1, hC2⟩ := hasCam_cons_false hC
    obtain ⟨hU1, hU2⟩ := hasUUL_cons_false hU
    obtain ⟨ihC, ihU⟩ := ih (decide (c = ' ')) hC2 hU2
    rw [capwA_cons]
    constructor
    · rw [hasCam_cons, ihC, Bool.or_false]
      rcases r with _ | ⟨d, r2⟩
      · rw [capwA_nil, camHead_nil]
      rw [capwA_cons, camHead_one, isLoDig_hdMap, isUp_hdMap]
      by_cases hs : c = ' '
      · subst hs
        have h1 : isDig ' ' = false := rfl
        have h2 : isLoDig ' ' = false := rfl
        cases b <;> simp [h1, h2]
      · rw [decide_eq_false hs]
        simp only [Bool.false_and, Bool.or_false]
        by_cases hud : isUp d = true
        · have hle : isLoDig c = false := by
            have := hC1
            rw [camHead_one, hud, Bool.and_true] at this
            exact this
          obtain ⟨hlo, hdig⟩ := isLoDig_or hle
          cases b <;> simp [hle, hdig]
        · have hud2 : isUp d = false := by simpa using hud
          simp [hud2]
    · rw [hasUUL_cons, ihU, Bool.or_false]
      rcases r with _ | ⟨d, r2⟩
      · rw [capwA_nil, uulHead_nil]
      rw [capwA_cons]
      rcases r2 with _ | ⟨e, r3⟩
      · rw [capwA_nil, uulHead_one]
      rw [capwA_cons, uulHead_two, isUp_hdMap, isUp_hdMap, isLo_hdMap]
      by_cases hs : c = ' '
      · subst hs
        have h1 : isUp ' ' = false := rfl
        have h2 : isLo ' ' = false := rfl
        cases b <;> simp [h1, h2]
      · rw [decide_eq_false hs]
        simp only [Bool.false_and, Bool.or_false]
        by_cases hds : d = ' '
        · subst hds
          have h1 : isUp ' ' = false := rfl
          simp [h1]
        · rw [decide_eq_false hds]
          simp only [Bool.not_false, Bool.and_true]
          by_cases hud : isUp d = true
          · by_cases hle : isLo e = true
            · have hupc : isUp c = false := by
                have := hU1
                rw [uulHead_two, hud, hle] at this
                simpa using this
              have hlec : isLoDig c = false := by
                have := hC1
                rw [camHead_one, hud, Bool.and_true] at this
                exact this
              obtain ⟨hloc, _⟩ := isLoDig_or hlec
              cases b <;> simp [hupc, hloc]
            · have hle2 : isLo e = false := by simpa using hle
              simp [hle2]
          · have hud2 : isUp d = false := by simpa using hud
            simp [hud2]

theorem capwA_idem : ∀ l b, capwA b (capwA b l) = capwA b l := by
  intro l
  induction l with
  | nil => intro b; rfl
  | cons c r ih =>
    intro b
    by_cases hs : c = ' '
    · subst hs
      rw [capwA_space, capwA_space, ih true]
    · rw [capwA_nonspace hs]
      have hy : (if b then upChar c else c) ≠ ' ' := by
        cases b
        · simpa using hs
        · simpa using upChar_ne_space hs
      rw [capwA_nonspace hy, ih false]
      cases b
      · rfl
      · simp [upChar_upChar]

theorem noDashB_capwA : ∀ l b, noDashB l = true → noDashB (capwA b l) = true := by
  intro l
  induction l with
  | nil => intro b _; rfl
  | cons c r ih =>
    intro b hD
    rw [noDashB_cons, Bool.and_eq_true] at hD
    rw [capwA_cons, noDashB_cons, isDash_hdMap, ih _ hD.2, Bool.and_true]
    exact hD.1

theorem headNonWS_cons (c : Char) (l : List Char) :
    headNonWS (c :: l) = !(isWS c) := rfl

theorem lastNonWS_one (c : Char) : lastNonWS [c] = !(isWS c) := rfl

theorem headNonWS_capwA {l : List Char} (b : Bool) (h : headNonWS l = true) :
    headNonWS (capwA b l) = true := by
  rcases l with _ | ⟨c, r⟩
  · rfl
  rw [capwA_cons, headNonWS_cons, isWS_hdMap]
  rw [headNonWS_cons] at h
  exact h

theorem lastNonWS_capwA : ∀ l b, lastNonWS l = true → lastNonWS (capwA b l) = true := by
  intro l
  induction l with
  | nil => intro b _; rfl
  | cons c r ih =>
    intro b hL
    rcases r with _ | ⟨d, m⟩
    · rw [capwA_cons, capwA_nil, lastNonWS_one, isWS_hdMap]
      rw [lastNonWS_one] at hL
      exact hL
    · rw [capwA_cons, capwA_cons]
      rw [lastNonWS_cons_cons]
      have := ih (decide (c = ' ')) (by rw [← lastNonWS_cons_cons c]; exact hL)
      rwa [capwA_cons] at this

/-! ## `toTitleCase` is idempotent on ASCII strings -/

theorem toTitleCase_eq_of_ne {l : List Char} (h : l ≠ []) :
    toTitleCase l =
      if jsTrim (dashRep (camelRep (acrRep l))) = [] then []
      else capw true (jsTrim (dashRep (camelRep (acrRep l)))) := by
  rw [toTitleCase, if_neg h]

theorem toTitleCase_idem_of_ascii {l : List Char} (h : allAscii l = true) :
    toTitleCase (toTitleCase l) = toTitleCase l := by
  by_cases hl : l = []
  · subst hl
    rfl
  rw [toTitleCase_eq_of_ne hl]
  by_cases hs : jsTrim (dashRep (camelRep (acrRep l))) = []
  · rw [if_pos hs]
    rfl
  rw [if_neg hs]
  have hUS : hasUUL (jsTrim (dashRep (camelRep (acrRep l)))) = false :=
    hasUUL_jsTrim (hasUUL_dashGo _ false
      (hasUUL_camelRep (acrRep l).length _ le_rfl (hasUUL_acrGo l.length l 0 le_rfl)))
  have hCS : hasCam (jsTrim (dashRep (camelRep (acrRep l)))) = false :=
    hasCam_jsTrim (hasCam_dashGo _ false (hasCam_camelRep (acrRep l).length _ le_rfl))
  have hDS : noDashB (jsTrim (dashRep (camelRep (acrRep l)))) = true :=
    noDashB_jsTrim (noDashB_dashGo _ false)
  have hAS : allAscii (jsTrim (dashRep (camelRep (acrRep l)))) = true :=
    allAscii_jsTrim (allAscii_dashGo _ false
      (allAscii_camelRep (acrRep l).length _ le_rfl
        (allAscii_acrGo l.length l 0 le_rfl h)))
  have hH : headNonWS (jsTrim (dashRep (camelRep (acrRep l)))) = true :=
    headNonWS_jsTrim _
  have hL2 : lastNonWS (jsTrim (dashRep (camelRep (acrRep l)))) = true :=
    lastNonWS_jsTrim _
  rw [capw_eq_capwA _ true hAS]
  set S := jsTrim (dashRep (camelRep (acrRep l))) with hSdef
  have hUR : hasUUL (capwA true S) = false := (capwA_scan S true hCS hUS).2
  have hCR : hasCam (capwA true S) = false := (capwA_scan S true hCS hUS).1
  have hDR : noDashB (capwA true S) = true := noDashB_capwA S true hDS
  have hAR : allAscii (capwA true S) = true := allAscii_capwA S true hAS
  have hHR : headNonWS (capwA true S) = true := headNonWS_capwA true hH
  have hLR : lastNonWS (capwA true S) = true := lastNonWS_capwA S true hL2
  have hRne : capwA true S ≠ [] := by
    rcases hSe : S with _ | ⟨c, t⟩
    · exact absurd hSe hs
    · rw [capwA_cons]
      exact List.cons_ne_nil _ _
  rw [toTitleCase_eq_of_ne hRne]
  have hid1 : acrRep (capwA true S) = capwA true S :=
    acrGo_id _ 0 hUR (fun hk => absurd hk (by omega))
  have hid2 : camelRep (capwA true S) = capwA true S := camelRep_id _ hCR
  have hid3 : dashRep (capwA true S) = capwA true S := dashGo_id _ false hDR
  have hid4 : jsTrim (capwA true S) = capwA true S := jsTrim_id hHR hLR
  rw [hid1, hid2, hid3, hid4, if_neg hRne, capw_eq_capwA _ true hAR,
    capwA_idem S true]

/-! ## Claim theorems -/

/-- C1: for a previously-uncached key and plain (`forceRerun = false`)
requests, no interleaving of any number of concurrent callers ever has more
than one computation started, more than one StatisticsProbe pass or more than
two language-model calls; late arrivals join the single pending entry instead
of starting a duplicate (there is no step that starts work on a pending or
ready entry), and once the entry is Ready exactly one probe pass and exactly
two model calls have occurred. -/
theorem C1_per_key_coalescing (s : CacheSt) (h : CacheReach s) :
    s.compsStarted ≤ 1 ∧ s.probes ≤ 1 ∧ s.llms ≤ 2 ∧
      ∀ v, s.entry = some (.ready v) → s.probes = 1 ∧ s.llms = 2 := by
  have hi := cacheInv_of_reach h
  have hbound : s.compsStarted ≤ 1 ∧ s.probes ≤ 1 ∧ s.llms ≤ 2 := by
    rcases he : s.entry with _ | e
    · simp only [cacheInv, he] at hi; omega
    · rcases e with ⟨ph, w⟩ | v
      · cases ph <;> simp only [cacheInv, he] at hi <;> omega
      · simp only [cacheInv, he] at hi; omega
  refine ⟨hbound.1, hbound.2.1, hbound.2.2, ?_⟩
  intro v hv
  simp only [cacheInv, hv] at hi
  omega

/-- C1 witness: a concrete three-caller interleaving — the first request
registers the computation, two late callers join it. -/
theorem C1_per_key_coalescing_witness :
    (⟨some (.pending .started 3), 1, 0, 0, 3⟩ : CacheSt).compsStarted ≤ 1 ∧
      (⟨some (.pending .started 3), 1, 0, 0, 3⟩ : CacheSt).probes ≤ 1 := by
  have hr : CacheReach ⟨some (.pending .started 3), 1, 0, 0, 3⟩ := by
    refine Relation.ReflTransGen.tail (Relation.ReflTransGen.tail
      (Relation.ReflTransGen.tail Relation.ReflTransGen.refl
        (CacheStep.newRequest cacheInit rfl)) (CacheStep.joinPending _ .started 1 rfl))
      (CacheStep.joinPending _ .started 2 rfl)
  have h := C1_per_key_coalescing _ hr
  exact ⟨h.1, h.2.1⟩

/-- C2: when the query executor fails on every attempt, the SQLAgent
terminates in GivenUp after exactly the configured maximum number of attempts
(the configured default being 3), never more — the correction trace has
exactly `maxAttempts` entries — and the GivenUp outcome is the user-facing
failure answer naming the last error. -/
theorem C2_correction_bound {α : Type} (exec : Nat → String → Except String α)
    (draft : String → String) (fix : String → String → String) (summ : α → String)
    (errOf : Nat → String) (question : String) (maxAttempts : Nat)
    (hmax : 1 ≤ maxAttempts) (hfail : ∀ n q, exec n q = .error (errOf n)) :
    (sqlAgentRun maxAttempts exec draft fix summ question).1 =
        .givenUp (givenUpAnswer (errOf maxAttempts)) ∧
      (sqlAgentRun maxAttempts exec draft fix summ question).2.length = maxAttempts ∧
      defaultMaxAttempts = 3 := by
  obtain ⟨m, rfl⟩ : ∃ m, maxAttempts = m + 1 :=
    ⟨maxAttempts - 1, by omega⟩
  have h := agentGo_allFail exec fix summ errOf hfail m 1 (draft question)
  have h1 := h.1
  rw [show (1 : Nat) + m = m + 1 from by omega] at h1
  exact ⟨h1, h.2, rfl⟩

/-- C2 witness: with an executor that always reports the same error, a
3-attempt run gives up after exactly 3 attempts. -/
theorem C2_correction_bound_witness :
    (sqlAgentRun 3 (fun _ _ => (.error "bad column" : Except String Nat))
          (fun q => q) (fun s _ => s) (fun _ => "") "how many orders").1 =
        .givenUp (givenUpAnswer "bad column") ∧
      (sqlAgentRun 3 (fun _ _ => (.error "bad column" : Except String Nat))
          (fun q => q) (fun s _ => s) (fun _ => "") "how many orders").2.length = 3 := by
  have h := C2_correction_bound (fun _ _ => (.error "bad column" : Except String Nat))
    (fun q => q) (fun s _ => s) (fun _ => "") (fun _ => "bad column")
    "how many orders" 3 (by omega) (fun n q => rfl)
  exact ⟨h.1, h.2.1⟩

/-- C3: the completeness metric is always between 0 and 100 inclusive, a
table with zero rows reports 100, and a nonempty table in which every cell is
null reports 0. -/
theorem C3_completeness_metric (t : List (List (Option Nat))) :
    completeness t ≤ 100 ∧
      (t = [] → completeness t = 100) ∧
      (t ≠ [] → (∀ r ∈ t, ∀ c ∈ r, c = none) → completeness t = 0) := by
  refine ⟨?_, ?_, ?_⟩
  · unfold completeness
    split
    · omega
    · exact roundPct_le_hundred _ _ (nonNullCells_le_totalCells t)
  · intro h; subst h; rfl
  · intro hne hnull
    have hzero : nonNullCells t = 0 := nonNullCells_eq_zero t hnull
    unfold completeness
    rw [if_neg (by simpa using hne), hzero, roundPct_zero]

/-- C3 witness: range at a mixed table, 100 at the empty table, 0 at an
all-null table. -/
theorem C3_completeness_metric_witness :
    completeness [[some 1, none], [none, some 2]] ≤ 100 ∧
      completeness ([] : List (List (Option Nat))) = 100 ∧
      completeness [[none, none]] = 0 :=
  ⟨(C3_completeness_metric _).1,
   (C3_completeness_metric _).2.1 rfl,
   (C3_completeness_metric [[none, none]]).2.2 (by decide) (by decide)⟩

/-- C4: a forced `GetOrCompute` performs a fresh computation even when a
Ready entry exists and the fresh result is what subsequent non-forced calls
return; on the caller side, every analyze request carries the force flag, the
initial page-load request sends it `false` and the Refresh action sends it
`true`. -/
theorem C4_force_refresh {K V : Type} [DecidableEq K] (c : K → Option V)
    (compute : Nat → V) (gen : Nat) (k : K) (v0 : V) (dbUrl : String)
    (_hready : c k = some v0) :
    (getOrCompute c compute gen k true).1 = compute gen ∧
      (getOrCompute c compute gen k true).2.2 = gen + 1 ∧
      (getOrCompute (getOrCompute c compute gen k true).2.1 compute
          (getOrCompute c compute gen k true).2.2 k false).1 = compute gen ∧
      (tableViewRequest dbUrl false).force_rerun = false ∧
      tableViewInitialRequest dbUrl = tableViewRequest dbUrl false ∧
      tableViewRefreshRequest dbUrl = tableViewRequest dbUrl true := by
  refine ⟨rfl, rfl, ?_, rfl, rfl, rfl⟩
  simp [getOrCompute, cacheUpdate]

/-- C4 witness: a singleton string-keyed cache holding a Ready value. -/
theorem C4_force_refresh_witness :
    (getOrCompute (fun k => if k = "orders" then some 7 else none)
        (fun g => 100 + g) 5 "orders" true).1 = 105 ∧
      (tableViewRefreshRequest "db").force_rerun = true := by
  have h := C4_force_refresh (fun k => if k = "orders" then some 7 else none)
    (fun g => 100 + g) 5 "orders" 7 "db" (by decide)
  exact ⟨h.1, by rw [h.2.2.2.2.2]; rfl⟩


/-- C5: a failed chat request is surfaced as an appended AI error message
whose text carries the backend detail string, and a failed analyze request
makes the table page render exactly that detail string — in the full-page
error view when nothing was loaded yet and in the inline error block when
stale data exists; in neither flow is the error discarded. -/
theorem C5_errors_surfaced (st : ChatState) (tv : TVState) (detail : String)
    (hinput : jsTrimStr st.input ≠ "") (hidle : st.isLoading = false) :
    (chatHandleSend st (.error detail)).messages =
        st.messages ++ [chatUserMsg st.input, ⟨"ai", chatErrorText detail, none⟩] ∧
      chatErrorText detail = "Sorry, I encountered an error: " ++ detail ∧
      tvErrorShown (tvApplyResponse (tvStartFetch tv) (.error (some detail))) =
        some detail := by
  refine ⟨?_, rfl, ?_⟩
  · rw [chatHandleSend, if_neg (by simp [hinput, hidle])]
    rfl
  · rcases tv with ⟨d, lo, er⟩
    rcases d with _ | d <;>
      simp [tvApplyResponse, tvStartFetch, tvErrorShown]

/-- C5 witness: concrete chat and table states receiving a failure with
detail text. -/
theorem C5_errors_surfaced_witness :
    (chatHandleSend ⟨[], "how many", false⟩ (.error "db down")).messages =
        [chatUserMsg "how many", ⟨"ai", chatErrorText "db down", none⟩] ∧
      tvErrorShown (tvApplyResponse (tvStartFetch ⟨none, false, none⟩)
          (.error (some "db down"))) = some "db down" := by
  have h := C5_errors_surfaced ⟨[], "how many", false⟩ ⟨none, false, none⟩
    "db down" (by decide) rfl
  exact ⟨by simpa using h.1, h.2.2⟩

/-- C6: the chat page's mode starts as `summary`, every reachable mode value
is `summary` or `sql`, and every chat request body carries the current mode
in its `chat_mode` field (alongside the question and connection string). -/
theorem C6_chat_mode_invariant :
    chatInitialMode = "summary" ∧
      (∀ m, ChatModeReachable m → m = "summary" ∨ m = "sql") ∧
      (∀ q c m, (chatRequestBody q c m).chat_mode = m) ∧
      (∀ q c m, (chatRequestBody q c m).question = q) := by
  refine ⟨rfl, ?_, fun _ _ _ => rfl, fun _ _ _ => rfl⟩
  intro m hm
  cases hm with
  | start => exact Or.inl rfl
  | businessTab _ _ => exact Or.inl rfl
  | sqlTab _ _ => exact Or.inr rfl

/-- C6 witness: the `sql` mode is reachable via its tab and rides in the
request body. -/
theorem C6_chat_mode_invariant_witness :
    ("sql" = "summary" ∨ "sql" = "sql") ∧
      (chatRequestBody "q" "db" "sql").chat_mode = "sql" :=
  ⟨C6_chat_mode_invariant.2.1 "sql"
      (ChatModeReachable.sqlTab chatInitialMode ChatModeReachable.start),
    C6_chat_mode_invariant.2.2.1 "q" "db" "sql"⟩

/-- C7: a successful connect persists the returned schema sequence and
navigates to the dashboard; a connect failure leaves the route on the landing
page and shows a `Connection Failed` banner carrying the error's detail
string. -/
theorem C7_connect_contract (st : LandingState) (schemas : List SchemaDescriptor)
    (detail : String) (hroute : st.route = "/") :
    (handleConnect st (.ok schemas)).storedSchemas = some schemas ∧
      (handleConnect st (.ok schemas)).storedDbUrl = some st.dbUrl ∧
      (handleConnect st (.ok schemas)).route = "/dashboard" ∧
      (handleConnect st (.error detail)).route = "/" ∧
      (handleConnect st (.error detail)).error =
        "Connection Failed: " ++ detail ∧
      (handleConnect st (.error detail)).storedSchemas = st.storedSchemas := by
  refine ⟨rfl, rfl, rfl, ?_, rfl, rfl⟩
  simp [handleConnect, hroute]

/-- C7 witness: a concrete landing state connecting to one schema or failing
with a detail string. -/
theorem C7_connect_contract_witness :
    (handleConnect ⟨"pg", false, "", none, none, "/"⟩
        (.ok [⟨"_default_", ["orders"], []⟩])).route = "/dashboard" ∧
      (handleConnect ⟨"pg", false, "", none, none, "/"⟩
          (.error "no such host")).error = "Connection Failed: no such host" := by
  have h := C7_connect_contract ⟨"pg", false, "", none, none, "/"⟩
    [⟨"_default_", ["orders"], []⟩] "no such host" rfl
  exact ⟨h.2.2.1, h.2.2.2.2.1⟩

/-- C8: the sentinel schema name `_default_` is rendered as `default` in
schema lists and dropped from the analysis page title, while any other schema
name is shown verbatim and qualifies the title. -/
theorem C8_default_schema_display (s item : String) (hs : s ≠ "_default_") :
    schemaDisplayName "_default_" = "default" ∧
      schemaDisplayName s = s ∧
      tableViewTitle "_default_" item = item ∧
      tableViewTitle s item = (s ++ ".") ++ item := by
  refine ⟨rfl, ?_, ?_, ?_⟩
  · rw [schemaDisplayName, if_neg hs]
  · simp [tableViewTitle]
  · rw [tableViewTitle, if_neg hs]

/-- C8 witness: the sentinel and an ordinary schema name. -/
theorem C8_default_schema_display_witness :
    schemaDisplayName "sales" = "sales" ∧
      tableViewTitle "sales" "orders" = "sales." ++ "orders" :=
  ⟨(C8_default_schema_display "sales" "orders" (by decide)).2.1,
    (C8_default_schema_display "sales" "orders" (by decide)).2.2.2⟩

/-- C9: the chat message list is append-only — a send with blank input or
while a request is in flight leaves it unchanged, and otherwise exactly the
user message followed by one AI message is appended; the previous messages
are always an unchanged prefix. -/
theorem C9_chat_append_only (st : ChatState) (resp : Except String ChatResponse) :
    ∃ t, (chatHandleSend st resp).messages = st.messages ++ t ∧
      ((jsTrimStr st.input = "" ∨ st.isLoading = true) → t = []) ∧
      (jsTrimStr st.input ≠ "" → st.isLoading = false →
        t = [chatUserMsg st.input, chatReplyMsg resp] ∧
          (chatUserMsg st.input).sender = "user" ∧
          (chatReplyMsg resp).sender = "ai") := by
  by_cases hcond : jsTrimStr st.input = "" || st.isLoading
  · refine ⟨[], by rw [chatHandleSend, if_pos hcond]; simp, fun _ => rfl, ?_⟩
    intro h1 h2
    rw [Bool.or_eq_true] at hcond
    rcases hcond with hc | hc
    · exact absurd (by simpa using hc) h1
    · rw [h2] at hc; cases hc
  · refine ⟨[chatUserMsg st.input, chatReplyMsg resp],
      by rw [chatHandleSend, if_neg hcond], ?_, ?_⟩
    · intro h
      rcases h with hc | hc
      · exact absurd (by simp [hc]) hcond
      · exact absurd (by simp [hc]) hcond
    · intro _ _
      refine ⟨rfl, rfl, ?_⟩
      cases resp <;> rfl

/-- C10 counterexample: `toTitleCase` is not idempotent on the string `ıAa`
(dotless i, uppercase A, lowercase a).  The first pass uppercases the word
start `ı` to the ASCII capital `I`, which the acronym regex of a second pass
then matches (`IA` followed by `a`), inserting a space: `ıAa ↦ IAa ↦ I Aa`. -/
theorem C10_not_idempotent :
    toTitleCase (toTitleCase ['ı', 'A', 'a']) ≠ toTitleCase ['ı', 'A', 'a'] := by
  decide

/-- C10 (amended): `toTitleCase` is idempotent on every ASCII string, and on
every falsy input (empty string, null, undefined) it returns the empty
string; idempotence can fail for non-ASCII input whose uppercasing creates
new ASCII capitals. -/
theorem C10_toTitleCase_ascii_idempotent (l : List Char) (h : allAscii l = true) :
    toTitleCase (toTitleCase l) = toTitleCase l ∧
      toTitleCaseJS none = [] ∧ toTitleCaseJS (some []) = [] :=
  ⟨toTitleCase_idem_of_ascii h, rfl, rfl⟩

/-- C10 witness: idempotence at a concrete ASCII snake_case string. -/
theorem C10_toTitleCase_ascii_idempotent_witness :
    toTitleCase (toTitleCase "hello_world".data) = toTitleCase "hello_world".data :=
  (C10_toTitleCase_ascii_idempotent "hello_world".data (by decide)).1

/-- C9 witness: a successful send from a concrete state appends exactly the
user message and the AI answer. -/
theorem C9_chat_append_only_witness :
    (chatHandleSend ⟨[⟨"ai", "welcome", none⟩], "hi", false⟩
        (.ok ⟨"two rows", some "SELECT 1"⟩)).messages =
      [⟨"ai", "welcome", none⟩] ++
        [chatUserMsg "hi", chatReplyMsg (.ok ⟨"two rows", some "SELECT 1"⟩)] := by
  obtain ⟨t, ht, -, h2⟩ := C9_chat_append_only
    ⟨[⟨"ai", "welcome", none⟩], "hi", false⟩ (.ok ⟨"two rows", some "SELECT 1"⟩)
  rw [ht, (h2 (by decide) rfl).1]

end IDDA

